import Mathlib

/-!
Verification of the ilogger capacity-bounded log store
(`src/storageAdapter.ts`, `src/iLogger.ts`) against its specification.

The persistent collection (`IndexedDBAdapter`) is not part of the sources;
it is modelled from the spec, section 4.1: an ordered collection whose
`append` assigns monotonically increasing sequence identifiers, whose
`read` returns records in ascending identifier order, and whose `write`
atomically replaces the whole set, assigning fresh identifiers in the
order given.

Log records are opaque to the store, so they are modelled by a type
parameter `α`.  The single-threaded cooperative execution model of the
source (spec section 5) lets each async method be embedded as a pure
state transformer on the store state; interleavings and failures that the
claims need are made explicit parameters (`mid`, per-record success
predicates) of the corresponding transformer.
-/

namespace ILog

variable {α : Type}

/-- Modelled from the spec: the Persistent Log Collection
(`IndexedDBAdapter`, absent from the sources).  `records` is the stored
sequence in ascending order of the auto-assigned identifier; `nextId` is
the next identifier the auto-increment key generator will hand out. -/
structure DB (α : Type) where
  records : List (Nat × α)
  nextId : Nat
  deriving Repr, DecidableEq

/-- Modelled from the spec: `append(record)` durably stores the record with
a fresh identifier strictly greater than all previously assigned ones. -/
def DB.append (db : DB α) (a : α) : DB α :=
  { records := db.records ++ [(db.nextId, a)], nextId := db.nextId + 1 }

/-- Modelled from the spec: `read()` returns all stored records with their
identifiers, in ascending identifier order. -/
def DB.read (db : DB α) : List (Nat × α) :=
  db.records

/-- Identifier assignment used by `DB.write`: the records receive
consecutive fresh identifiers in the order given. -/
def withIds (n : Nat) : List α → List (Nat × α)
  | [] => []
  | a :: r => (n, a) :: withIds (n + 1) r

/-- Modelled from the spec: `write(records)` atomically replaces the whole
stored set; each record gets a freshly assigned identifier in order. -/
def DB.write (db : DB α) (l : List α) : DB α :=
  { records := withIds db.nextId l, nextId := db.nextId + l.length }

/-- Modelled from the spec: `count()` is the number of stored records. -/
def DB.count (db : DB α) : Nat :=
  db.records.length

/-- Modelled from the spec: `clear()` removes all stored records (the key
generator is not reset). -/
def DB.clear (db : DB α) : DB α :=
  { records := [], nextId := db.nextId }

/-- The caller-visible contents of the collection: stored records in
insertion order with the internal identifiers stripped. -/
def DB.contents (db : DB α) : List α :=
  db.records.map Prod.snd

/-- State of a `StorageAdapter` instance: the persistent collection
handle, the in-memory pending-write buffer and the capacity bound.
(The debounce timer is part of the timed model `TimedStore` below.) -/
structure Store (α : Type) where
  key : String
  db : DB α
  pendingWrites : List α
  maxEntries : Nat
  deriving Repr, DecidableEq

/-- `new StorageAdapter(key, maxEntries)`: empty pending buffer, fresh
collection handle for `key`. -/
def initStore (key : String) (maxEntries : Nat) : Store α :=
  { key := key, db := { records := [], nextId := 1 }, pendingWrites := [], maxEntries := maxEntries }

/-- `StorageAdapter.getMaxLogs`. -/
def getMaxLogs (s : Store α) : Nat :=
  s.maxEntries

/-- The sort in `trimOldEntries`: `logs.sort((a, b) => (a.id || 0) - (b.id || 0))`,
a stable sort ascending by identifier. -/
def sortById (l : List (Nat × α)) : List (Nat × α) :=
  l.insertionSort (fun a b => a.1 ≤ b.1)

/-- JavaScript `arr.slice(-m)` for a natural `m`: the last `m` elements,
except that `slice(-0)` is `slice(0)`, the whole array. -/
def sliceLast (m : Nat) (l : List α) : List α :=
  if m = 0 then l else l.drop (l.length - m)

/-- `StorageAdapter.trimOldEntries(excessCount?)`: read all records, sort
ascending by identifier, keep either all but the first `excessCount`
(when given and positive) or the last `maxEntries`, strip identifiers and
rewrite the collection.  Its own persistence errors are caught and
logged, so the transformer is total. -/
def trimOldEntries (excess : Option Nat) (s : Store α) : Store α :=
  let logs := s.db.read
  if excess = none ∧ logs.length ≤ s.maxEntries then s
  else
    let sorted := sortById logs
    let toKeep :=
      match excess with
      | some k => if 0 < k then sorted.drop k else sliceLast s.maxEntries sorted
      | none => sliceLast s.maxEntries sorted
    { s with db := s.db.write (toKeep.map Prod.snd) }

/-- The `Promise.all(toWrite.map((entry) => this.db.append(entry)))` step
with per-record failure injection: appends are issued in batch order;
each record for which `ok` holds commits, the others leave the collection
unchanged.  (Even when the aggregate promise rejects early, the
individual operations that succeed still commit.) -/
def appendBatch (ok : α → Bool) (batch : List α) (db : DB α) : DB α :=
  batch.foldl (fun d e => if ok e then d.append e else d) db

/-- `StorageAdapter.flushPendingWrites` with failure injection.  `ok`
says which individual `db.append` calls succeed; `mid` is the list of
records that concurrent `append` callers push into the pending buffer
while the flush is suspended at its await points.  All errors are caught
inside the method: on any append failure the batch is re-enqueued at the
front of the pending buffer (`unshift`) and nothing is thrown. -/
def flushPendingWritesF (ok : α → Bool) (mid : List α) (s : Store α) : Store α :=
  if s.pendingWrites.length = 0 then s
  else
    let toWrite := s.pendingWrites
    let s0 : Store α := { s with pendingWrites := mid }
    let currentCount := s0.db.count
    let s1 :=
      if s.maxEntries < currentCount + toWrite.length then
        trimOldEntries (some (currentCount + toWrite.length - s.maxEntries)) s0
      else s0
    let db2 := appendBatch ok toWrite s1.db
    if toWrite.all ok then
      let s2 : Store α := { s1 with db := db2 }
      if s.maxEntries < db2.count then trimOldEntries none s2 else s2
    else
      { s1 with db := db2, pendingWrites := toWrite ++ mid }

/-- `StorageAdapter.flushPendingWrites` on the failure-free path with no
interleaved appends. -/
def flushPendingWrites (s : Store α) : Store α :=
  flushPendingWritesF (fun _ => true) [] s

/-- The state effect of `StorageAdapter.append(entry)` on the store
fields: push onto the pending buffer.  It never touches the collection
and never throws; the debounce timer it (re)starts is modelled in
`TimedStore.appendAt`. -/
def appendStore (e : α) (s : Store α) : Store α :=
  { s with pendingWrites := s.pendingWrites ++ [e] }

/-- A sequence of `append` calls in order. -/
def appendAll (es : List α) (s : Store α) : Store α :=
  es.foldl (fun t e => appendStore e t) s

/-- `StorageAdapter.getAll` on the failure-free path: flush, then read and
strip identifiers.  Returns the result list and the post state. -/
def getAll (s : Store α) : List α × Store α :=
  let s1 := flushPendingWrites s
  (s1.db.read.map Prod.snd, s1)

/-- `StorageAdapter.count` on the failure-free path: flush, then count. -/
def countStore (s : Store α) : Nat × Store α :=
  let s1 := flushPendingWrites s
  (s1.db.count, s1)

/-- `StorageAdapter.getAll` with failure injection: the flush swallows its
own append failures (`ok`); the direct `db.read` fails iff `readOk` is
false, and only that failure propagates to the caller. -/
def getAllF (ok : α → Bool) (readOk : Bool) (s : Store α) :
    Except String (List α × Store α) :=
  let s1 := flushPendingWritesF ok [] s
  if readOk then .ok (s1.db.read.map Prod.snd, s1) else .error "read failed"

/-- `StorageAdapter.count` with failure injection, as `getAllF`. -/
def countStoreF (ok : α → Bool) (countOk : Bool) (s : Store α) :
    Except String (Nat × Store α) :=
  let s1 := flushPendingWritesF ok [] s
  if countOk then .ok (s1.db.count, s1) else .error "count failed"

/-- `StorageAdapter.setMaxLogs(maxLogs)`: reject values below 1 with an
explicit error before any flush side effect; otherwise flush, update the
limit, and trim when the current count exceeds the new limit.  The result
pairs the thrown-or-returned outcome with the store state afterwards, so
the no-mutation-on-rejection behaviour is expressible. -/
def setMaxLogs (maxLogs : Int) (s : Store α) : Except String Unit × Store α :=
  if maxLogs < 1 then (.error "maxLogs must be at least 1", s)
  else
    let s1 := flushPendingWrites s
    let s2 : Store α := { s1 with maxEntries := maxLogs.toNat }
    let currentCount := s2.db.count
    if s2.maxEntries < currentCount then (.ok (), trimOldEntries none s2)
    else (.ok (), s2)

/-- `StorageAdapter.clear`: discard the pending buffer (and the timer, in
the timed model), then clear the collection. -/
def clearStore (s : Store α) : Store α :=
  { s with pendingWrites := [], db := s.db.clear }

/-- `StorageAdapter.setMaxLogs` with failure injection.  Its direct
persistence operation is the `db.count()` await, which is not wrapped in
any try/catch: when it fails (`countOk = false`) the error propagates to
the caller, with the flush already performed and the limit already
updated (the source assigns `this.maxEntries` before counting).  The
trim's own errors are caught inside `trimOldEntries`. -/
def setMaxLogsF (ok : α → Bool) (countOk : Bool) (maxLogs : Int) (s : Store α) :
    Except String Unit × Store α :=
  if maxLogs < 1 then (.error "maxLogs must be at least 1", s)
  else
    let s1 := flushPendingWritesF ok [] s
    let s2 : Store α := { s1 with maxEntries := maxLogs.toNat }
    if countOk then
      if s2.maxEntries < s2.db.count then (.ok (), trimOldEntries none s2)
      else (.ok (), s2)
    else (.error "count failed", s2)

/-- `StorageAdapter.clear` with failure injection: the pending buffer and
the timer are discarded before the await; the direct `db.clear()` call is
not wrapped in any try/catch, so its failure propagates to the caller,
with the buffer already discarded. -/
def clearStoreF (clearOk : Bool) (s : Store α) : Except String Unit × Store α :=
  let s1 : Store α := { s with pendingWrites := [] }
  if clearOk then (.ok (), { s1 with db := s1.db.clear })
  else (.error "clear failed", s1)

/-- The store together with its debounce timer (`writeTimer`) and a log
of the instants at which the timer callback ran a flush.  `deadline` is
the absolute time at which the currently scheduled timer fires, if one is
scheduled; time is in milliseconds. -/
structure TimedStore (α : Type) where
  store : Store α
  deadline : Option Nat
  flushes : List Nat
  deriving Repr, DecidableEq

/-- `StorageAdapter.append(entry)` at time `t`: push the entry onto the
pending buffer, cancel any scheduled timer (`clearTimeout`) and schedule
a flush 100 ms from now (`setTimeout(..., 100)`). -/
def appendAt (t : Nat) (e : α) (ts : TimedStore α) : TimedStore α :=
  { store := appendStore e ts.store, deadline := some (t + 100), flushes := ts.flushes }

/-- Timer semantics: at time `t`, a scheduled timer whose deadline has
been reached fires, running `flushPendingWrites` and clearing itself. -/
def fireIfDue (t : Nat) (ts : TimedStore α) : TimedStore α :=
  match ts.deadline with
  | none => ts
  | some d =>
    if d ≤ t then
      { store := flushPendingWrites ts.store, deadline := none, flushes := ts.flushes ++ [d] }
    else ts

/-- One burst step: let any due timer fire, then perform the append. -/
def stepAppend (ts : TimedStore α) (p : Nat × α) : TimedStore α :=
  appendAt p.1 p.2 (fireIfDue p.1 ts)

/-- Run a time-stamped sequence of `append` calls. -/
def runAppends (l : List (Nat × α)) (ts : TimedStore α) : TimedStore α :=
  l.foldl stepAppend ts

/-- Wait for quiescence: the remaining scheduled timer, if any, fires at
its deadline. -/
def settle (ts : TimedStore α) : TimedStore α :=
  match ts.deadline with
  | none => ts
  | some d =>
    { store := flushPendingWrites ts.store, deadline := none, flushes := ts.flushes ++ [d] }

/-- A burst of appends followed by waiting for the debounce to settle. -/
def runBurst (l : List (Nat × α)) (ts : TimedStore α) : TimedStore α :=
  settle (runAppends l ts)

/-- Options accepted by the `ILogger(options)` factory. -/
structure LoggerOptions where
  maxLogs : Option Nat
  deriving Repr, DecidableEq

/-- `ILoggerCore`: owns the storage adapter and the console-logging flag.
(The named-instance registry holds `LoggerInstance` objects that only
forward to `storage`; it plays no role in the claims and is omitted.) -/
structure Core (α : Type) where
  storage : Store α
  consoleLogging : Bool
  deriving Repr, DecidableEq

/-- `new ILoggerCore(options)`: a storage adapter on the fixed key with
capacity `options.maxLogs ?? 5000`. -/
def mkCore (options : Option LoggerOptions) : Core α :=
  { storage := initStore "__illogger__" (((options.getD { maxLogs := none }).maxLogs).getD 5000),
    consoleLogging := false }

/-- The module-level singleton factory `ILogger(options)`: constructs the
core on the first call (`_illogger` empty) and stores it; afterwards it
returns the stored instance, ignoring `options`.  Returns the instance
handed to the caller and the new module state. -/
def iLoggerFactory (options : Option LoggerOptions) (g : Option (Core α)) :
    Core α × Option (Core α) :=
  match g with
  | none => let c := mkCore options; (c, some c)
  | some c => (c, some c)

/-- Scenario runner for the capacity and ordering claims: starting from a
fresh adapter, repeatedly enqueue a group of appends and let the flush
settle (whether fired by the debounce timer or forced by a read). -/
def runGroups (key : String) (maxE : Nat) (gs : List (List α)) : Store α :=
  gs.foldl (fun s g => flushPendingWrites (appendAll g s)) (initStore key maxE)

/-- The last `m` elements of `l` (all of `l` when it is shorter). -/
def lastN (m : Nat) (l : List α) : List α :=
  l.drop (l.length - m)

/-- Sequence-identifier invariant of the persistent collection: records
are strictly ascending in identifier, and every identifier is below the
key generator's next value.  It holds for every reachable collection
state. -/
def DBinv (db : DB α) : Prop :=
  db.records.Pairwise (fun x y => x.1 < y.1) ∧ ∀ p ∈ db.records, p.1 < db.nextId

instance instDecidableDBinv (db : DB α) : Decidable (DBinv db) :=
  inferInstanceAs (Decidable
    (db.records.Pairwise (fun x y : Nat × α => x.1 < y.1) ∧ ∀ p ∈ db.records, p.1 < db.nextId))

theorem withIds_map_snd (n : Nat) (l : List α) : (withIds n l).map Prod.snd = l := by
  induction l generalizing n with
  | nil => rfl
  | cons a r ih => simp [withIds, ih]

theorem withIds_length (n : Nat) (l : List α) : (withIds n l).length = l.length := by
  induction l generalizing n with
  | nil => rfl
  | cons a r ih => simp [withIds, ih]

theorem withIds_lb (n : Nat) (l : List α) : ∀ p ∈ withIds n l, n ≤ p.1 := by
  induction l generalizing n with
  | nil => intro p hp; cases hp
  | cons a r ih =>
    intro p hp
    rcases List.mem_cons.mp hp with hp | hp
    · simp [hp]
    · exact Nat.le_of_succ_le (ih (n + 1) p hp)

theorem withIds_ub (n : Nat) (l : List α) : ∀ p ∈ withIds n l, p.1 < n + l.length := by
  induction l generalizing n with
  | nil => intro p hp; cases hp
  | cons a r ih =>
    intro p hp
    rcases List.mem_cons.mp hp with hp | hp
    · simp [hp, withIds]
    · have := ih (n + 1) p hp
      simp only [List.length_cons]
      omega

theorem withIds_pairwise (n : Nat) (l : List α) :
    (withIds n l).Pairwise (fun x y : Nat × α => x.1 < y.1) := by
  induction l generalizing n with
  | nil => exact List.Pairwise.nil
  | cons a r ih =>
    refine List.pairwise_cons.mpr ⟨?_, ih (n + 1)⟩
    intro p hp
    exact Nat.lt_of_lt_of_le (Nat.lt_succ_self n) (withIds_lb (n + 1) r p hp)

theorem DBinv_init : DBinv ({ records := [], nextId := 1 } : DB α) := by
  constructor
  · exact List.Pairwise.nil
  · intro p hp; cases hp

theorem DBinv_append {db : DB α} (h : DBinv db) (a : α) : DBinv (db.append a) := by
  obtain ⟨hpw, hub⟩ := h
  constructor
  · refine List.pairwise_append.mpr ⟨hpw, List.pairwise_singleton _ _, ?_⟩
    intro p hp q hq
    rcases List.mem_singleton.mp hq with hq
    exact hq ▸ hub p hp
  · intro p hp
    simp only [DB.append, List.mem_append, List.mem_singleton] at hp
    rcases hp with hp | hp
    · exact Nat.lt_succ_of_lt (hub p hp)
    · simp [hp, DB.append]

theorem DBinv_write (db : DB α) (l : List α) : DBinv (db.write l) := by
  constructor
  · exact withIds_pairwise db.nextId l
  · intro p hp
    have := withIds_ub db.nextId l p hp
    simpa [DB.write] using this

theorem DB_write_contents (db : DB α) (l : List α) : (db.write l).contents = l := by
  simp [DB.write, DB.contents, withIds_map_snd]

theorem appendBatch_spec (ok : α → Bool) (batch : List α) (db : DB α) :
    appendBatch ok batch db =
      { records := db.records ++ withIds db.nextId (batch.filter ok),
        nextId := db.nextId + (batch.filter ok).length } := by
  induction batch generalizing db with
  | nil => simp [appendBatch, withIds]
  | cons a r ih =>
    by_cases ha : ok a
    · simp only [appendBatch, List.foldl_cons, ha, if_pos]
      rw [show (List.foldl (fun d e => if ok e then d.append e else d) (db.append a) r) =
            appendBatch ok r (db.append a) from rfl, ih]
      simp [DB.append, withIds, ha, List.filter_cons, Nat.add_assoc, Nat.add_comm 1]
    · simp only [appendBatch, List.foldl_cons, ha, if_neg, Bool.false_eq_true, not_false_iff]
      rw [show (List.foldl (fun d e => if ok e then d.append e else d) db r) =
            appendBatch ok r db from rfl, ih]
      simp [List.filter_cons, ha]

theorem DBinv_appendBatch {db : DB α} (h : DBinv db) (ok : α → Bool) (batch : List α) :
    DBinv (appendBatch ok batch db) := by
  rw [appendBatch_spec]
  obtain ⟨hpw, hub⟩ := h
  constructor
  · refine List.pairwise_append.mpr ⟨hpw, withIds_pairwise _ _, ?_⟩
    intro p hp q hq
    exact Nat.lt_of_lt_of_le (hub p hp) (withIds_lb _ _ q hq)
  · intro p hp
    rcases List.mem_append.mp hp with hp | hp
    · exact Nat.lt_of_lt_of_le (hub p hp) (Nat.le_add_right _ _)
    · exact withIds_ub _ _ p hp

theorem sortById_eq_self {l : List (Nat × α)} (h : l.Pairwise (fun x y => x.1 < y.1)) :
    sortById l = l := by
  induction l with
  | nil => rfl
  | cons a r ih =>
    obtain ⟨ha, hr⟩ := List.pairwise_cons.mp h
    show (a :: r).insertionSort (fun x y => x.1 ≤ y.1) = a :: r
    rw [List.insertionSort]
    rw [show r.insertionSort (fun x y => x.1 ≤ y.1) = sortById r from rfl, ih hr]
    cases r with
    | nil => rfl
    | cons b t =>
      have : a.1 ≤ b.1 := Nat.le_of_lt (ha b (by simp))
      simp [List.orderedInsert, this]

theorem trim_some_spec (s : Store α) (e : Nat) (he : 0 < e) (hinv : DBinv s.db) :
    trimOldEntries (some e) s = { s with db := s.db.write (s.db.contents.drop e) } := by
  unfold trimOldEntries
  rw [if_neg (by simp)]
  simp only [DB.read]
  rw [sortById_eq_self hinv.1, if_pos he]
  have : (s.db.records.drop e).map Prod.snd = s.db.contents.drop e := by
    simp [DB.contents, List.map_drop]
  rw [this]

theorem trim_none_spec (s : Store α) (hinv : DBinv s.db) (hmax : 0 < s.maxEntries)
    (hgt : s.maxEntries < s.db.count) :
    trimOldEntries none s = { s with db := s.db.write (lastN s.maxEntries s.db.contents) } := by
  unfold trimOldEntries
  rw [if_neg (by simp [DB.read, DB.count] at hgt ⊢; omega)]
  simp only [DB.read]
  rw [sortById_eq_self hinv.1]
  unfold sliceLast
  rw [if_neg (by omega)]
  have hlen : s.db.records.length = s.db.contents.length := by simp [DB.contents]
  have : (s.db.records.drop (s.db.records.length - s.maxEntries)).map Prod.snd =
      lastN s.maxEntries s.db.contents := by
    simp [lastN, DB.contents, List.map_drop]
  rw [this]

theorem flushF_of_ne (ok : α → Bool) (mid : List α) (s : Store α)
    (hne : s.pendingWrites ≠ []) :
    flushPendingWritesF ok mid s =
      (let s1 :=
        if s.maxEntries < s.db.count + s.pendingWrites.length then
          trimOldEntries (some (s.db.count + s.pendingWrites.length - s.maxEntries))
            { s with pendingWrites := mid }
        else { s with pendingWrites := mid }
      let db2 := appendBatch ok s.pendingWrites s1.db
      if s.pendingWrites.all ok then
        if s.maxEntries < db2.count then trimOldEntries none { s1 with db := db2 }
        else { s1 with db := db2 }
      else { s1 with db := db2, pendingWrites := s.pendingWrites ++ mid }) := by
  unfold flushPendingWritesF
  rw [if_neg (by simpa [List.length_eq_zero] using hne)]

theorem drop_append_ge (x y : List α) (n : Nat) (h : x.length ≤ n) :
    (x ++ y).drop n = y.drop (n - x.length) := by
  rw [show n = x.length + (n - x.length) from by omega, List.drop_append]
  congr 1
  omega

theorem lastN_of_len_le {l : List α} {m : Nat} (h : l.length ≤ m) : lastN m l = l := by
  unfold lastN
  rw [Nat.sub_eq_zero_of_le h, List.drop_zero]

theorem lastN_length_le (m : Nat) (l : List α) : (lastN m l).length ≤ m := by
  unfold lastN
  rw [List.length_drop]
  omega

theorem mem_lastN_concat {m : Nat} (hm : 0 < m) (l : List α) (e : α) :
    e ∈ lastN m (l ++ [e]) := by
  unfold lastN
  have h : (l ++ [e]).length - m ≤ l.length := by
    simp only [List.length_append, List.length_singleton]
    omega
  rw [List.drop_append_of_le_length h]
  simp

theorem lastN_lastN_append (m : Nat) (x y : List α) :
    lastN m (lastN m x ++ y) = lastN m (x ++ y) := by
  by_cases h : x.length ≤ m
  · rw [lastN_of_len_le h]
  · unfold lastN
    have h1 : (x.drop (x.length - m)).length = m := by
      rw [List.length_drop]; omega
    by_cases h2 : y.length ≤ m
    · rw [List.drop_append_of_le_length (by simp [h1, List.length_append]; omega),
        List.drop_append_of_le_length (by simp [List.length_append]; omega),
        List.drop_drop]
      congr 2
      simp only [List.length_append, h1]
      omega
    · rw [drop_append_ge _ _ _ (by simp [h1, List.length_append]; omega),
        drop_append_ge _ _ _ (by simp [List.length_append]; omega)]
      congr 1
      simp only [List.length_append, h1]
      omega

theorem appendBatch_true_contents (P : List α) (db : DB α) :
    (appendBatch (fun _ => true) P db).contents = db.contents ++ P := by
  rw [appendBatch_spec]
  simp [DB.contents, withIds_map_snd]

theorem appendBatch_true_count (P : List α) (db : DB α) :
    (appendBatch (fun _ => true) P db).count = db.count + P.length := by
  rw [appendBatch_spec]
  simp [DB.count, withIds_length]

theorem contents_length (db : DB α) : db.contents.length = db.count := by
  simp [DB.contents, DB.count]

theorem flush_eq_noexceed (s : Store α) (hne : s.pendingWrites ≠ [])
    (hx : ¬ s.maxEntries < s.db.count + s.pendingWrites.length) :
    flushPendingWrites s =
      { s with pendingWrites := [],
               db := appendBatch (fun _ => true) s.pendingWrites s.db } := by
  rw [show flushPendingWrites s = flushPendingWritesF (fun _ => true) [] s from rfl,
    flushF_of_ne _ _ _ hne]
  simp only []
  rw [if_neg hx, if_pos (show (s.pendingWrites.all fun _ => true) = true by simp)]
  rw [if_neg (by rw [appendBatch_true_count]; exact hx)]

theorem flush_eq_exceed_small (s : Store α) (hinv : DBinv s.db)
    (hne : s.pendingWrites ≠ [])
    (hx : s.maxEntries < s.db.count + s.pendingWrites.length)
    (hB : s.pendingWrites.length ≤ s.maxEntries) :
    flushPendingWrites s =
      { s with pendingWrites := [],
               db := appendBatch (fun _ => true) s.pendingWrites
                 (s.db.write (s.db.contents.drop
                   (s.db.count + s.pendingWrites.length - s.maxEntries))) } := by
  have he : 0 < s.db.count + s.pendingWrites.length - s.maxEntries := by omega
  rw [show flushPendingWrites s = flushPendingWritesF (fun _ => true) [] s from rfl,
    flushF_of_ne _ _ _ hne]
  simp only []
  rw [if_pos hx, if_pos (show (s.pendingWrites.all fun _ => true) = true by simp)]
  rw [show trimOldEntries (some (s.db.count + s.pendingWrites.length - s.maxEntries))
        { s with pendingWrites := ([] : List α) } =
      { s with pendingWrites := [],
               db := s.db.write (s.db.contents.drop
                 (s.db.count + s.pendingWrites.length - s.maxEntries)) } from
    trim_some_spec _ _ he hinv]
  rw [if_neg (by
    rw [appendBatch_true_count]
    have hrc : s.db.contents.length = s.db.records.length := by
      simp [DB.contents]
    simp only [DB.write, DB.count, withIds_length, List.length_drop]
    omega)]

theorem flush_eq_exceed_big (s : Store α) (hinv : DBinv s.db) (hmax : 0 < s.maxEntries)
    (hne : s.pendingWrites ≠ [])
    (hB : s.maxEntries < s.pendingWrites.length) :
    flushPendingWrites s =
      (let db2 := appendBatch (fun _ => true) s.pendingWrites
        (s.db.write (s.db.contents.drop
          (s.db.count + s.pendingWrites.length - s.maxEntries)))
      { s with pendingWrites := [],
               db := db2.write (lastN s.maxEntries db2.contents) }) := by
  have hx : s.maxEntries < s.db.count + s.pendingWrites.length := by omega
  have he : 0 < s.db.count + s.pendingWrites.length - s.maxEntries := by omega
  rw [show flushPendingWrites s = flushPendingWritesF (fun _ => true) [] s from rfl,
    flushF_of_ne _ _ _ hne]
  simp only []
  rw [if_pos hx, if_pos (show (s.pendingWrites.all fun _ => true) = true by simp)]
  rw [show trimOldEntries (some (s.db.count + s.pendingWrites.length - s.maxEntries))
        { s with pendingWrites := ([] : List α) } =
      { s with pendingWrites := [],
               db := s.db.write (s.db.contents.drop
                 (s.db.count + s.pendingWrites.length - s.maxEntries)) } from
    trim_some_spec _ _ he hinv]
  have hcnt : (appendBatch (fun _ => true) s.pendingWrites
      (s.db.write (s.db.contents.drop
        (s.db.count + s.pendingWrites.length - s.maxEntries)))).count =
      s.pendingWrites.length := by
    rw [appendBatch_true_count]
    have hrc : s.db.contents.length = s.db.records.length := by
      simp [DB.contents]
    simp only [DB.write, DB.count, withIds_length, List.length_drop]
    omega
  dsimp only
  rw [if_pos (by rw [hcnt]; exact hB)]
  have hinv2 : DBinv (appendBatch (fun _ => true) s.pendingWrites
      (s.db.write (s.db.contents.drop
        (s.db.count + s.pendingWrites.length - s.maxEntries)))) :=
    DBinv_appendBatch (DBinv_write _ _) _ _
  have htr := trim_none_spec (α := α)
    { key := s.key,
      db := appendBatch (fun _ => true) s.pendingWrites
        (s.db.write (s.db.contents.drop
          (s.db.count + s.pendingWrites.length - s.maxEntries))),
      pendingWrites := [], maxEntries := s.maxEntries }
    hinv2 hmax (by dsimp only; rw [hcnt]; exact hB)
  rw [htr]

theorem flush_empty (s : Store α) (h : s.pendingWrites = []) : flushPendingWrites s = s := by
  unfold flushPendingWrites flushPendingWritesF
  rw [if_pos (by simp [h])]

theorem flush_spec (s : Store α) (hinv : DBinv s.db) (hmax : 0 < s.maxEntries)
    (hne : s.pendingWrites ≠ []) :
    (flushPendingWrites s).db.contents = lastN s.maxEntries (s.db.contents ++ s.pendingWrites) ∧
    (flushPendingWrites s).pendingWrites = [] ∧
    DBinv (flushPendingWrites s).db ∧
    (flushPendingWrites s).maxEntries = s.maxEntries ∧
    (flushPendingWrites s).key = s.key := by
  have hrc : s.db.contents.length = s.db.records.length := by simp [DB.contents]
  have hcnt' : s.db.count = s.db.records.length := rfl
  by_cases hx : s.maxEntries < s.db.count + s.pendingWrites.length
  · by_cases hB : s.pendingWrites.length ≤ s.maxEntries
    · rw [flush_eq_exceed_small s hinv hne hx hB]
      refine ⟨?_, rfl, DBinv_appendBatch (DBinv_write _ _) _ _, rfl, rfl⟩
      dsimp only
      rw [appendBatch_true_contents, DB_write_contents]
      unfold lastN
      have hle : (s.db.contents ++ s.pendingWrites).length - s.maxEntries ≤
          s.db.contents.length := by
        simp only [List.length_append]
        omega
      rw [List.drop_append_of_le_length hle]
      congr 2
      simp only [List.length_append]
      omega
    · push_neg at hB
      rw [flush_eq_exceed_big s hinv hmax hne hB]
      refine ⟨?_, rfl, DBinv_write _ _, rfl, rfl⟩
      dsimp only
      rw [DB_write_contents, appendBatch_true_contents, DB_write_contents]
      rw [List.drop_eq_nil_of_le (by omega), List.nil_append]
      unfold lastN
      have hge : s.db.contents.length ≤
          (s.db.contents ++ s.pendingWrites).length - s.maxEntries := by
        simp only [List.length_append]
        omega
      rw [drop_append_ge _ _ _ (le_trans (le_refl _) hge)]
      congr 1
      simp only [List.length_append]
      omega
  · rw [flush_eq_noexceed s hne hx]
    refine ⟨?_, rfl, DBinv_appendBatch hinv _ _, rfl, rfl⟩
    dsimp only
    rw [appendBatch_true_contents]
    exact (lastN_of_len_le (by simp only [List.length_append]; omega)).symm

theorem appendAll_eq (es : List α) (s : Store α) :
    appendAll es s = { s with pendingWrites := s.pendingWrites ++ es } := by
  induction es generalizing s with
  | nil => simp [appendAll]
  | cons e r ih =>
    show appendAll r (appendStore e s) = _
    rw [ih]
    simp [appendStore]

theorem runGroups_step (key : String) (n : Nat) (gs : List (List α)) (g : List α) :
    runGroups key n (gs ++ [g]) = flushPendingWrites (appendAll g (runGroups key n gs)) := by
  simp [runGroups, List.foldl_append, appendAll]

theorem runGroups_spec (key : String) (n : Nat) (hmax : 0 < n) (gs : List (List α)) :
    (runGroups key n gs).db.contents = lastN n gs.flatten ∧
    (runGroups key n gs).pendingWrites = [] ∧
    DBinv (runGroups key n gs).db ∧
    (runGroups key n gs).maxEntries = n ∧
    (runGroups key n gs).key = key := by
  induction gs using List.reverseRecOn with
  | nil =>
    refine ⟨?_, rfl, DBinv_init, rfl, rfl⟩
    simp [runGroups, initStore, DB.contents, lastN]
  | append_singleton gs g ih =>
    obtain ⟨hc, hp, hinv, hm, hk⟩ := ih
    by_cases hg : g = []
    · subst hg
      rw [runGroups_step, show appendAll [] (runGroups key n gs) = runGroups key n gs from rfl,
        flush_empty _ hp]
      refine ⟨?_, hp, hinv, hm, hk⟩
      rw [hc]
      simp
    · rw [runGroups_step, appendAll_eq, hp]
      simp only [List.nil_append, hm]
      obtain ⟨hc2, hp2, hinv2, hm2, hk2⟩ := flush_spec (α := α)
        { key := (runGroups key n gs).key, db := (runGroups key n gs).db,
          pendingWrites := g, maxEntries := n } hinv hmax hg
      dsimp only at hc2 hm2 hk2
      rw [hc] at hc2
      refine ⟨?_, hp2, hinv2, hm2, hk2.trans hk⟩
      rw [hc2, lastN_lastN_append]
      simp

/-- C1.  Capacity invariant: for every sequence of appends (grouped
arbitrarily between settled flushes) and every configured limit
`maxEntries = n ≥ 1`, once the pending buffer has been flushed the
durable collection holds at most `n` records. -/
theorem capacity_invariant (key : String) (n : Nat) (gs : List (List α)) (hmax : 0 < n) :
    (runGroups key n gs).db.count ≤ n := by
  rw [← contents_length, (runGroups_spec key n hmax gs).1]
  exact lastN_length_le n gs.flatten

/-- Witness for C1 at a concrete input: seven appends against limit 3
leave at most 3 records. -/
theorem capacity_invariant_witness :
    0 < 3 ∧ (runGroups "k" 3 [[1, 2, 3, 4], [5, 6, 7]]).db.count ≤ 3 :=
  ⟨by decide, capacity_invariant "k" 3 [[1, 2, 3, 4], [5, 6, 7]] (by decide)⟩

/-- C2.  Most-recent-kept with order preservation: appending `n + k`
records with limit `n` across any grouping of settled flushes leaves,
as the result of `getAll`, exactly the last `n` appended records in
append order (the first `k` are evicted from the oldest end). -/
theorem most_recent_kept (key : String) (n k : Nat) (gs : List (List α)) (hmax : 0 < n)
    (hlen : gs.flatten.length = n + k) :
    (getAll (runGroups key n gs)).1 = gs.flatten.drop k := by
  obtain ⟨hc, hp, _, _, _⟩ := runGroups_spec key n hmax gs
  have hgetAll : (getAll (runGroups key n gs)).1 = (runGroups key n gs).db.contents := by
    unfold getAll
    rw [flush_empty _ hp]
    rfl
  rw [hgetAll, hc]
  unfold lastN
  rw [hlen]
  congr 1
  omega

/-- Witness for C2 at a concrete input: five appends with limit 2 leave
exactly the last two, in order. -/
theorem most_recent_kept_witness :
    0 < 2 ∧ ([[10, 11, 12], [13, 14]] : List (List Nat)).flatten.length = 2 + 3 ∧
      (getAll (runGroups "k" 2 [[10, 11, 12], [13, 14]])).1 =
        ([[10, 11, 12], [13, 14]] : List (List Nat)).flatten.drop 3 :=
  ⟨by decide, by decide,
    most_recent_kept "k" 2 3 [[10, 11, 12], [13, 14]] (by decide) (by decide)⟩

/-- C3.  Flush-before-read: `append(record)` followed immediately by
`getAll()` returns a result containing the just-appended record, and the
forced flush leaves the pending buffer empty, so buffering is never
observable to a reader. -/
theorem flush_before_read (s : Store α) (e : α) (hinv : DBinv s.db)
    (hmax : 0 < s.maxEntries) :
    e ∈ (getAll (appendStore e s)).1 ∧ (getAll (appendStore e s)).2.pendingWrites = [] := by
  have hne : (appendStore e s).pendingWrites ≠ [] := by simp [appendStore]
  obtain ⟨hc, hp, _, _, _⟩ := flush_spec (appendStore e s) hinv hmax hne
  refine ⟨?_, hp⟩
  show e ∈ (flushPendingWrites (appendStore e s)).db.contents
  rw [hc]
  have hsplit : (appendStore e s).db.contents ++ (appendStore e s).pendingWrites =
      (s.db.contents ++ s.pendingWrites) ++ [e] := by
    simp [appendStore]
  rw [hsplit]
  exact mem_lastN_concat hmax _ e

/-- Witness for C3 at a concrete input. -/
theorem flush_before_read_witness :
    DBinv (initStore "k" 5 : Store Nat).db ∧ 0 < (initStore "k" 5 : Store Nat).maxEntries ∧
      7 ∈ (getAll (appendStore 7 (initStore "k" 5))).1 ∧
      (getAll (appendStore 7 (initStore "k" 5))).2.pendingWrites = [] := by
  refine ⟨DBinv_init, by decide, ?_⟩
  exact flush_before_read (initStore "k" 5) 7 DBinv_init (by decide)

/-- C4 counterexample: with limit 1, one stored record (`C = 1`) and a
pending batch of two (`B = 2`), the claim demands removal of exactly
`C + B - maxEntries = 2` oldest records, but the proactive trim of the
flush removes only the 1 record that exists. -/
theorem proactive_trim_counterexample :
    (let s : Store Nat := appendAll [8, 9] (flushPendingWrites (appendAll [7] (initStore "k" 1)))
    s.maxEntries < s.db.count + s.pendingWrites.length ∧
      s.db.count + s.pendingWrites.length - s.maxEntries = 2 ∧
      s.db.count - (trimOldEntries (some 2) { s with pendingWrites := [] }).db.count = 1) := by
  decide

/-- C4 amended: when `C + B > maxEntries`, the flush first removes
exactly `min C (C + B - maxEntries)` of the oldest records (all of the
collection when the excess exceeds it) before adding the new batch, and
the rest of the flush operates on the trimmed collection. -/
theorem proactive_trim_amended (s : Store α) (hinv : DBinv s.db)
    (hx : s.maxEntries < s.db.count + s.pendingWrites.length)
    (hne : s.pendingWrites ≠ []) :
    (let e := s.db.count + s.pendingWrites.length - s.maxEntries
    let s1 := trimOldEntries (some e) { s with pendingWrites := [] }
    s1.db.contents = s.db.contents.drop e ∧
      s.db.count - s1.db.count = min s.db.count e ∧
      (flushPendingWrites s).db =
        (let db2 := appendBatch (fun _ => true) s.pendingWrites s1.db
        if s.maxEntries < db2.count then (trimOldEntries none { s1 with db := db2 }).db
        else db2)) := by
  have he : 0 < s.db.count + s.pendingWrites.length - s.maxEntries := by omega
  have htr := trim_some_spec { s with pendingWrites := ([] : List α) }
    (s.db.count + s.pendingWrites.length - s.maxEntries) he hinv
  simp only []
  rw [htr]
  refine ⟨DB_write_contents _ _, ?_, ?_⟩
  · have h1 : (s.db.write (s.db.contents.drop
        (s.db.count + s.pendingWrites.length - s.maxEntries))).count =
        s.db.contents.length - (s.db.count + s.pendingWrites.length - s.maxEntries) := by
      simp [DB.write, DB.count, withIds_length]
    rw [h1]
    have hrc : s.db.contents.length = s.db.records.length := by simp [DB.contents]
    have hcnt' : s.db.count = s.db.records.length := rfl
    omega
  · rw [show flushPendingWrites s = flushPendingWritesF (fun _ => true) [] s from rfl,
      flushF_of_ne _ _ _ hne]
    simp only []
    rw [if_pos hx, if_pos (show (s.pendingWrites.all fun _ => true) = true by simp), htr]
    dsimp only
    split
    · rfl
    · rfl

/-- Witness for C4's amended theorem at a concrete input. -/
theorem proactive_trim_amended_witness :
    (let s : Store Nat := appendAll [8, 9] (flushPendingWrites (appendAll [7] (initStore "k" 1)))
    DBinv s.db ∧ s.maxEntries < s.db.count + s.pendingWrites.length ∧ s.pendingWrites ≠ [] ∧
      (let e := s.db.count + s.pendingWrites.length - s.maxEntries
      let s1 := trimOldEntries (some e) { s with pendingWrites := [] }
      s1.db.contents = s.db.contents.drop e ∧
        s.db.count - s1.db.count = min s.db.count e ∧
        (flushPendingWrites s).db =
          (let db2 := appendBatch (fun _ => true) s.pendingWrites s1.db
          if s.maxEntries < db2.count then (trimOldEntries none { s1 with db := db2 }).db
          else db2))) := by
  refine ⟨by decide, by decide, by decide, ?_⟩
  exact proactive_trim_amended _ (by decide) (by decide) (by decide)

/-- C5 counterexample: a flush whose underlying appends all fail is not
reported to the `getAll` caller: `getAll` succeeds, silently returning a
view that lacks the buffered record (which was requeued for retry). -/
theorem getAll_failure_counterexample :
    getAllF (fun _ => false) true (appendAll [0] (initStore "k" 10)) =
      .ok ([], appendAll [0] (initStore "k" 10)) := by
  rfl

/-- C5 amended: no read-style operation ever fails because of a flush
failure (the flush catches its own errors and requeues the batch);
`getAll`, `count`, `setMaxLogs` and `clear` each propagate exactly the
persistence failures of their own direct operation — `getAll` its read,
`count` and `setMaxLogs` their count (for `setMaxLogs` with the limit
already updated), `clear` its `db.clear` (with the pending buffer already
discarded) — and succeed whenever that direct operation succeeds, whatever
the injected flush failures. -/
theorem read_failure_propagation (ok : α → Bool) (s : Store α) (n : Int) (hn : 1 ≤ n) :
    (∃ r, getAllF ok true s = .ok r) ∧
      getAllF ok false s = .error "read failed" ∧
      (∃ r, countStoreF ok true s = .ok r) ∧
      countStoreF ok false s = .error "count failed" ∧
      (setMaxLogsF ok true n s).1 = .ok () ∧
      (setMaxLogsF ok false n s).1 = .error "count failed" ∧
      clearStoreF true s = (.ok (), { s with pendingWrites := [], db := s.db.clear }) ∧
      clearStoreF false s = (.error "clear failed", { s with pendingWrites := [] }) := by
  refine ⟨⟨_, rfl⟩, rfl, ⟨_, rfl⟩, rfl, ?_, ?_, rfl, rfl⟩
  · unfold setMaxLogsF
    rw [if_neg (by omega)]
    simp only []
    rw [if_pos trivial]
    split <;> rfl
  · unfold setMaxLogsF
    rw [if_neg (by omega)]
    rfl

/-- Witness for C5's amended theorem at a concrete input: every append of
the flush fails, yet only the operations whose own direct persistence step
fails report an error. -/
theorem read_failure_propagation_witness :
    (1 : Int) ≤ 2 ∧
      ((∃ r, getAllF (fun _ => false) true (appendAll [0] (initStore "k" 10)) = .ok r) ∧
        getAllF (fun _ => false) false (appendAll [0] (initStore "k" 10)) =
          .error "read failed" ∧
        (∃ r, countStoreF (fun _ => false) true (appendAll [0] (initStore "k" 10)) = .ok r) ∧
        countStoreF (fun _ => false) false (appendAll [0] (initStore "k" 10)) =
          .error "count failed" ∧
        (setMaxLogsF (fun _ => false) true 2 (appendAll [0] (initStore "k" 10))).1 = .ok () ∧
        (setMaxLogsF (fun _ => false) false 2 (appendAll [0] (initStore "k" 10))).1 =
          .error "count failed" ∧
        clearStoreF true (appendAll [0] (initStore "k" 10)) =
          (.ok (), clearStore (appendAll [0] (initStore "k" 10))) ∧
        clearStoreF false (appendAll [0] (initStore "k" 10)) =
          (.error "clear failed",
            { (appendAll [0] (initStore "k" 10) : Store Nat) with pendingWrites := [] })) :=
  ⟨by decide, read_failure_propagation (fun _ => false) (appendAll [0] (initStore "k" 10)) 2
    (by decide)⟩

/-- C6.  Requeue-on-failure preserves data: when any append of the batch
fails, the whole batch is re-enqueued at the front of the pending buffer,
ahead of records enqueued while the flush was in flight, and no record of
the batch is dropped.  (The embedded flush is a total transformer — it
throws nothing, so the failure can never surface to an `append` caller.) -/
theorem requeue_on_failure (ok : α → Bool) (mid : List α) (s : Store α)
    (hne : s.pendingWrites ≠ []) (hfail : s.pendingWrites.all ok = false) :
    (flushPendingWritesF ok mid s).pendingWrites = s.pendingWrites ++ mid ∧
    ∀ e ∈ s.pendingWrites, e ∈ (flushPendingWritesF ok mid s).pendingWrites := by
  have hres : (flushPendingWritesF ok mid s).pendingWrites = s.pendingWrites ++ mid := by
    rw [flushF_of_ne ok mid s hne]
    simp only []
    rw [if_neg (by rw [hfail]; exact Bool.false_ne_true)]
  refine ⟨hres, ?_⟩
  intro e he
  rw [hres]
  exact List.mem_append_left _ he

/-- Witness for C6 at a concrete input: batch `[0, 1]` where the append
of `1` fails, with `[5]` enqueued during the flush. -/
theorem requeue_on_failure_witness :
    (appendAll [0, 1] (initStore "k" 10) : Store Nat).pendingWrites ≠ [] ∧
      ((appendAll [0, 1] (initStore "k" 10) : Store Nat).pendingWrites.all (· == 0)) = false ∧
      (flushPendingWritesF (· == 0) [5] (appendAll [0, 1] (initStore "k" 10))).pendingWrites =
        (appendAll [0, 1] (initStore "k" 10) : Store Nat).pendingWrites ++ [5] ∧
      ∀ e ∈ (appendAll [0, 1] (initStore "k" 10) : Store Nat).pendingWrites,
        e ∈ (flushPendingWritesF (· == 0) [5] (appendAll [0, 1] (initStore "k" 10))).pendingWrites := by
  refine ⟨by decide, by decide, ?_⟩
  exact requeue_on_failure (· == 0) [5] (appendAll [0, 1] (initStore "k" 10))
    (by decide) (by decide)

/-- C7.  Limit rejection is side-effect-free: for every `n < 1`,
`setMaxLogs n` rejects with the explicit error before any flush side
effect, and the store — limit, collection and pending buffer — is
returned unchanged. -/
theorem setMaxLogs_rejects (n : Int) (s : Store α) (h : n < 1) :
    setMaxLogs n s = (.error "maxLogs must be at least 1", s) := by
  unfold setMaxLogs
  rw [if_pos h]

/-- Witness for C7 at a concrete input. -/
theorem setMaxLogs_rejects_witness :
    ((0 : Int) < 1) ∧
      setMaxLogs 0 (appendAll [3] (initStore "k" 5) : Store Nat) =
        (.error "maxLogs must be at least 1", appendAll [3] (initStore "k" 5)) :=
  ⟨by decide, setMaxLogs_rejects 0 (appendAll [3] (initStore "k" 5)) (by decide)⟩

/-- C9.  Partial batch failure can duplicate records: the flush submits
batch records as independent appends; when one fails and another
succeeds, the whole batch — including the already-durable record — is
requeued, and the next successful flush stores a second copy.  Concretely
for batch `[0, 1]` where only the append of `0` succeeds: after the
failed flush, `0` is both durable and requeued, and a subsequent
successful flush leaves two copies of `0`. -/
theorem partial_failure_duplicates :
    (let s1 := flushPendingWritesF (fun e => e == 0) [] (appendAll [0, 1] (initStore "k" 10))
    s1.db.contents = [0] ∧ s1.pendingWrites = [0, 1] ∧
      (getAll s1).1 = [0, 0, 1] ∧ (getAll s1).1.count 0 = 2) := by
  decide

theorem runAppends_no_fire (l : List (Nat × α)) :
    ∀ (ts : TimedStore α) (d : Nat), ts.deadline = some d →
    (∀ p ∈ l.head?, p.1 < d) →
    l.Chain' (fun p q => q.1 < p.1 + 100) →
    runAppends l ts =
      { store := appendAll (l.map Prod.snd) ts.store,
        deadline := some ((l.getLast?.map (fun p => p.1 + 100)).getD d),
        flushes := ts.flushes } := by
  induction l with
  | nil =>
    intro ts d hd _ _
    cases ts with
    | mk st dl fl =>
      simp only [TimedStore.deadline] at hd
      simp [runAppends, hd]
      rfl
  | cons p r ih =>
    intro ts d hd hhead hchain
    have hp : p.1 < d := hhead p (by simp)
    have hfire : fireIfDue p.1 ts = ts := by
      unfold fireIfDue
      rw [hd]
      simp only []
      rw [if_neg (by omega)]
    show runAppends r (stepAppend ts p) = _
    rw [show stepAppend ts p = appendAt p.1 p.2 (fireIfDue p.1 ts) from rfl, hfire]
    rw [ih (appendAt p.1 p.2 ts) (p.1 + 100) rfl
      (fun q hq => ((List.chain'_cons'.mp hchain).1 q hq))
      (List.chain'_cons'.mp hchain).2]
    cases r with
    | nil => simp [appendAt, appendAll, appendStore]
    | cons q rs =>
      simp only [appendAt, List.map_cons, List.getLast?_cons_cons]
      rfl

/-- C8.  Debounce coalescing: each enqueue during an active 100 ms
window cancels and restarts the timer, so a burst of appends in which
every gap is shorter than the window produces exactly one flush, which
fires at the burst's last append time plus the window and flushes the
whole burst in order. -/
theorem debounce_coalescing (l : List (Nat × α)) (s0 : Store α) (hne : l ≠ [])
    (hchain : l.Chain' (fun p q => p.1 ≤ q.1 ∧ q.1 < p.1 + 100)) :
    (runBurst l ⟨s0, none, []⟩).flushes = [(l.getLast hne).1 + 100] ∧
    (runBurst l ⟨s0, none, []⟩).store =
      flushPendingWrites (appendAll (l.map Prod.snd) s0) ∧
    (runBurst l ⟨s0, none, []⟩).deadline = none := by
  cases l with
  | nil => exact absurd rfl hne
  | cons p r =>
    have hstep : stepAppend (⟨s0, none, []⟩ : TimedStore α) p =
        appendAt p.1 p.2 ⟨s0, none, []⟩ := by
      show appendAt p.1 p.2 (fireIfDue p.1 ⟨s0, none, []⟩) = _
      rfl
    have hrun := runAppends_no_fire r (appendAt p.1 p.2 ⟨s0, none, []⟩) (p.1 + 100) rfl
      (fun q hq => ((List.chain'_cons'.mp hchain).1 q hq).2)
      (((List.chain'_cons'.mp hchain).2).imp (fun a b h => h.2))
    have hD : ((r.getLast?.map (fun x => x.1 + 100)).getD (p.1 + 100)) =
        ((p :: r).getLast hne).1 + 100 := by
      cases r with
      | nil => rfl
      | cons q rs =>
        have h1 : (q :: rs) ≠ [] := by simp
        rw [List.getLast?_eq_getLast (q :: rs) h1]
        conv_rhs => rw [List.getLast_cons h1]
        rfl
    have hall : runBurst (p :: r) (⟨s0, none, []⟩ : TimedStore α) =
        { store := flushPendingWrites (appendAll ((p :: r).map Prod.snd) s0),
          deadline := none,
          flushes := [(r.getLast?.map (fun x => x.1 + 100)).getD (p.1 + 100)] } := by
      unfold runBurst
      rw [show runAppends (p :: r) (⟨s0, none, []⟩ : TimedStore α) =
          runAppends r (stepAppend ⟨s0, none, []⟩ p) from rfl, hstep, hrun]
      rfl
    rw [hall]
    refine ⟨?_, rfl, rfl⟩
    rw [hD]

/-- Witness for C8 at a concrete input: three appends at 0 ms, 50 ms and
120 ms (every gap below 100 ms) produce exactly one flush, at 220 ms. -/
theorem debounce_coalescing_witness :
    ([(0, 10), (50, 11), (120, 12)] : List (Nat × Nat)) ≠ [] ∧
      ([(0, 10), (50, 11), (120, 12)] : List (Nat × Nat)).Chain'
        (fun p q => p.1 ≤ q.1 ∧ q.1 < p.1 + 100) ∧
      (runBurst [(0, 10), (50, 11), (120, 12)]
        (⟨initStore "k" 99, none, []⟩ : TimedStore Nat)).flushes = [120 + 100] := by
  refine ⟨by decide, by simp [List.chain'_cons], ?_⟩
  exact (debounce_coalescing [(0, 10), (50, 11), (120, 12)] (initStore "k" 99)
    (by decide) (by simp [List.chain'_cons])).1

/-- C10.  Singleton construction ignores later options: the factory
constructs the core only when the module-level slot is empty; any second
call returns the original instance and state unchanged, whatever its
options, and the original capacity (`options.maxLogs ?? 5000` of the
first call) is retained. -/
theorem singleton_ignores_options (o1 o2 : Option LoggerOptions) :
    iLoggerFactory (α := α) o2 (iLoggerFactory (α := α) o1 none).2 =
        iLoggerFactory (α := α) o1 none ∧
      (iLoggerFactory (α := α) o1 none).1.storage.maxEntries =
        ((o1.getD { maxLogs := none }).maxLogs).getD 5000 ∧
      ∀ c : Core α, (iLoggerFactory (α := α) o2 (some c)).1 = c :=
  ⟨rfl, rfl, fun _ => rfl⟩

end ILog
